import Mathlib

/-!
Verification development for the shodh ingestion and hybrid-retrieval pipeline.

Each Lean definition is a shallow embedding of a function of the repository
(`src/services/ingestion_manager.py`, `src/ingestion/docling_parser.py`,
`src/db/qdrant_store.py`).  Python strings are modelled as `String` / `List Char`
(ASCII character classes), Python `int` as `Int`/`Nat`, dictionaries as
insertion-ordered association lists, and raised exceptions as `Except`/`Option`.
The builtin Python `hash` is modelled as an unspecified but fixed function
parameter, matching its behaviour within one interpreter process.
-/

namespace Shodh

/-! ## IngestionJobManager (src/services/ingestion_manager.py)

The job dictionary value (`paper_id`, `title`, `status`, `progress`,
`start_time`, `step`, optional `error`).  `start_time` is a logical clock:
`datetime.utcnow().isoformat()` yields strings that increase with each
successive `add_job` call, modelled as a `Nat` counter. -/
structure Job where
  paperId : String
  title : String
  status : String
  progress : Int
  startTime : Nat
  stepField : String
  error : Option String
deriving DecidableEq

/-- Manager state.  `active_jobs` is an insertion-ordered dict keyed by
`paper_id`; `queued_jobs` plus `queue_order` are kept in lockstep by the code
(every insertion and removal updates both), so they are modelled as a single
FIFO list of jobs.  `clock` supplies the monotone `start_time` stamps. -/
structure MgrState where
  activeJobs : List Job
  queuedJobs : List Job
  clock : Nat
deriving DecidableEq

/-- `MAX_JOBS = 10`, the `MAX_CONCURRENT_JOBS` bound. -/
def MAX_JOBS : Nat := 10

/-- A status is terminal when it is `"completed"` or `"failed"`. -/
def isTerminal (s : String) : Bool :=
  s = "completed" || s = "failed"

/-- `[j for j in active_jobs.values() if j["status"] not in ("completed","failed")]`. -/
def runningJobs (l : List Job) : List Job :=
  l.filter (fun j => ¬ isTerminal j.status)

/-- `candidates.sort(key=start_time); candidates[0]`: the terminal job with the
smallest `start_time` (Python's sort is stable, so ties keep insertion order;
start times are strictly increasing here, so ties do not arise). -/
def findOldestTerminal : List Job → Option Job
  | [] => none
  | j :: rest =>
    let r := findOldestTerminal rest
    if isTerminal j.status then
      match r with
      | none => some j
      | some m => if m.startTime < j.startTime then some m else some j
    else r

/-- `del active_jobs[pid]`: remove the (unique) entry with the given key. -/
def removeByKey (pid : String) : List Job → List Job
  | [] => []
  | j :: rest => if j.paperId = pid then rest else j :: removeByKey pid rest

/-- The eviction step of `add_job` / `_process_queue_unsafe`: if a terminal
candidate exists, evict the oldest one; otherwise leave the dict unchanged
(the code's `pass` branch). -/
def evictOldestTerminal (l : List Job) : List Job :=
  match findOldestTerminal l with
  | none => l
  | some c => removeByKey c.paperId l

/-- Fresh job record built at the top of `add_job` (`title or paper_id`,
Python truthiness: `None` and `""` fall back to `paper_id`). -/
def newJob (pid : String) (title : Option String) (clock : Nat) : Job :=
  { paperId := pid
    title := match title with
             | some t => if t = "" then pid else t
             | none => pid
    status := "pending"
    progress := 0
    startTime := clock
    stepField := "queued"
    error := none }

/-- `IngestionJobManager.add_job`, returning the new state and the returned
status string. -/
def addJob (pid : String) (title : Option String) (s : MgrState) :
    MgrState × String :=
  match s.activeJobs.find? (fun j => j.paperId = pid) with
  | some j => (s, j.status)
  | none =>
    if (s.queuedJobs.find? (fun j => j.paperId = pid)).isSome then
      (s, "queued")
    else
      let nj := newJob pid title s.clock
      if (runningJobs s.activeJobs).length < MAX_JOBS then
        let active' :=
          if s.activeJobs.length ≥ MAX_JOBS then evictOldestTerminal s.activeJobs
          else s.activeJobs
        ({ s with activeJobs := active' ++ [nj], clock := s.clock + 1 }, "pending")
      else
        ({ s with queuedJobs := s.queuedJobs ++ [{ nj with status := "queued" }],
                  clock := s.clock + 1 }, "queued")

/-- The in-place mutation of one tracked job performed by `update_job`
(`if step:` / `if progress is not None:` / `if error:`). -/
def applyUpdate (j : Job) (status : String) (step : Option String)
    (progress : Option Int) (error : Option String) : Job :=
  { j with
    status := status
    stepField := match step with
                 | some t => if t = "" then j.stepField else t
                 | none => j.stepField
    progress := match progress with
                | some p => p
                | none => j.progress
    error := match error with
             | some e => if e = "" then j.error else some e
             | none => j.error }

/-- `IngestionJobManager._process_queue_unsafe`. -/
def processQueueUnsafe (s : MgrState) : MgrState :=
  match s.queuedJobs with
  | [] => s
  | nextJob :: rest =>
    if (runningJobs s.activeJobs).length < MAX_JOBS then
      let active' :=
        if s.activeJobs.length ≥ MAX_JOBS then evictOldestTerminal s.activeJobs
        else s.activeJobs
      { s with activeJobs := active' ++ [{ nextJob with status := "pending" }],
               queuedJobs := rest }
    else s

/-- `IngestionJobManager.update_job`.  An update on a queued or unknown paper
id is a no-op (the code's `pass` / warning branches). -/
def updateJob (pid : String) (status : String) (step : Option String)
    (progress : Option Int) (error : Option String) (s : MgrState) : MgrState :=
  if (s.activeJobs.find? (fun j => j.paperId = pid)).isSome then
    let active' := s.activeJobs.map
      (fun j => if j.paperId = pid then applyUpdate j status step progress error else j)
    let s' := { s with activeJobs := active' }
    if isTerminal status then processQueueUnsafe s' else s'
  else s

/-- One interleaved call on the manager (`add_job` or `update_job`); the
single coarse lock makes any concurrent history a sequence of these. -/
inductive MgrOp where
  | add (pid : String) (title : Option String)
  | update (pid : String) (status : String) (step : Option String)
      (progress : Option Int) (error : Option String)

/-- Apply one call to the state. -/
def applyOp (s : MgrState) : MgrOp → MgrState
  | .add pid title => (addJob pid title s).1
  | .update pid st stp pr er => updateJob pid st stp pr er s

/-- Freshly constructed manager (`__init__`). -/
def initState : MgrState := { activeJobs := [], queuedJobs := [], clock := 0 }

/-- State reached by a sequence of interleaved calls. -/
def runOps (ops : List MgrOp) : MgrState := ops.foldl applyOp initState

/-! ### Lemmas about the job manager -/

theorem findOldestTerminal_mem {l : List Job} {c : Job}
    (h : findOldestTerminal l = some c) : c ∈ l ∧ isTerminal c.status := by
  induction l with
  | nil => simp [findOldestTerminal] at h
  | cons j rest ih =>
    simp only [findOldestTerminal] at h
    by_cases hj : isTerminal j.status
    · simp only [hj, if_true] at h
      cases hr : findOldestTerminal rest with
      | none =>
        rw [hr] at h
        simp only [Option.some.injEq] at h
        subst h
        exact ⟨List.mem_cons_self _ _, hj⟩
      | some m =>
        rw [hr] at h
        by_cases hlt : m.startTime < j.startTime
        · simp only [hlt, if_true, Option.some.injEq] at h
          subst h
          rcases ih hr with ⟨hm, ht⟩
          exact ⟨List.mem_cons_of_mem _ hm, ht⟩
        · simp only [hlt, if_false, Option.some.injEq] at h
          subst h
          exact ⟨List.mem_cons_self _ _, hj⟩
    · simp only [hj, if_false] at h
      rcases ih h with ⟨hm, ht⟩
      exact ⟨List.mem_cons_of_mem _ hm, ht⟩

theorem findOldestTerminal_isSome {l : List Job} {j : Job}
    (hj : j ∈ l) (ht : isTerminal j.status) :
    (findOldestTerminal l).isSome := by
  induction l with
  | nil => cases hj
  | cons a rest ih =>
    simp only [findOldestTerminal]
    rcases List.mem_cons.mp hj with h | h
    · subst h
      simp only [ht, if_true]
      cases findOldestTerminal rest with
      | none => simp
      | some m => by_cases hlt : m.startTime < j.startTime <;> simp [hlt]
    · have := ih h
      by_cases ha : isTerminal a.status
      · simp only [ha, if_true]
        cases findOldestTerminal rest with
        | none => simp
        | some m => by_cases hlt : m.startTime < a.startTime <;> simp [hlt]
      · simpa [ha] using this

theorem removeByKey_length {pid : String} {l : List Job}
    (h : ∃ j ∈ l, j.paperId = pid) :
    (removeByKey pid l).length + 1 = l.length := by
  induction l with
  | nil => rcases h with ⟨j, hj, _⟩; cases hj
  | cons a rest ih =>
    simp only [removeByKey]
    by_cases ha : a.paperId = pid
    · simp [ha]
    · rcases h with ⟨j, hj, hpid⟩
      rcases List.mem_cons.mp hj with rfl | hmem
      · exact absurd hpid ha
      · simp only [ha, if_false, List.length_cons]
        rw [ih ⟨j, hmem, hpid⟩]

theorem removeByKey_subset {pid : String} {l : List Job} {j : Job}
    (h : j ∈ removeByKey pid l) : j ∈ l := by
  induction l with
  | nil => cases h
  | cons a rest ih =>
    simp only [removeByKey] at h
    by_cases ha : a.paperId = pid
    · simp only [ha, if_true] at h; exact List.mem_cons_of_mem _ h
    · simp only [ha, if_false, List.mem_cons] at h
      rcases h with h | h
      · exact h ▸ List.mem_cons_self _ _
      · exact List.mem_cons_of_mem _ (ih h)

theorem evictOldestTerminal_subset {l : List Job} {j : Job}
    (h : j ∈ evictOldestTerminal l) : j ∈ l := by
  unfold evictOldestTerminal at h
  cases hf : findOldestTerminal l with
  | none => rw [hf] at h; exact h
  | some c => rw [hf] at h; exact removeByKey_subset h

/-- When the dict is full but a run slot is free, a terminal candidate exists
and eviction shrinks the dict by one entry. -/
theorem evict_length_of_slack {l : List Job}
    (hfull : l.length ≥ MAX_JOBS) (hrun : (runningJobs l).length < MAX_JOBS) :
    (evictOldestTerminal l).length + 1 = l.length := by
  have hlt : (runningJobs l).length < l.length := lt_of_lt_of_le hrun hfull
  have hex : ∃ j ∈ l, ¬ (¬ isTerminal j.status : Bool) = true := by
    by_contra hall
    push_neg at hall
    have : runningJobs l = l := List.filter_eq_self.mpr hall
    rw [this] at hlt
    exact lt_irrefl _ hlt
  rcases hex with ⟨j, hj, hterm⟩
  have hterm' : isTerminal j.status := by
    by_contra hc
    exact hterm (by simp [hc])
  have hsome := findOldestTerminal_isSome hj hterm'
  unfold evictOldestTerminal
  cases hf : findOldestTerminal l with
  | none => rw [hf] at hsome; cases hsome
  | some c =>
    rcases findOldestTerminal_mem hf with ⟨hcmem, _⟩
    exact removeByKey_length ⟨c, hcmem, rfl⟩

/-- The length bound on the active dict, and the queued-status discipline. -/
def MgrInv (s : MgrState) : Prop :=
  s.activeJobs.length ≤ MAX_JOBS ∧ ∀ j ∈ s.queuedJobs, j.status = "queued"

theorem mgrInv_init : MgrInv initState := by
  constructor
  · simp [initState, MAX_JOBS]
  · intro j hj; simp [initState] at hj

theorem active_length_after_insertion {l : List Job} (nj : Job)
    (hlen : l.length ≤ MAX_JOBS) (hrun : (runningJobs l).length < MAX_JOBS) :
    ((if l.length ≥ MAX_JOBS then evictOldestTerminal l else l) ++ [nj]).length
      ≤ MAX_JOBS := by
  by_cases hfull : l.length ≥ MAX_JOBS
  · have := evict_length_of_slack hfull hrun
    simp only [hfull, if_true, List.length_append, List.length_cons,
      List.length_nil]
    omega
  · simp only [hfull, if_false, List.length_append, List.length_cons,
      List.length_nil]
    omega

theorem mgrInv_applyOp {s : MgrState} (hinv : MgrInv s) (op : MgrOp) :
    MgrInv (applyOp s op) := by
  rcases hinv with ⟨hlen, hq⟩
  cases op with
  | add pid title =>
    simp only [applyOp, addJob]
    cases hfind : s.activeJobs.find? (fun j => j.paperId = pid) with
    | some j => exact ⟨hlen, hq⟩
    | none =>
      simp only
      by_cases hqf : (s.queuedJobs.find? (fun j => j.paperId = pid)).isSome
      · simp only [hqf, if_true]; exact ⟨hlen, hq⟩
      · simp only [hqf, if_false]
        by_cases hrun : (runningJobs s.activeJobs).length < MAX_JOBS
        · simp only [hrun, if_true]
          refine ⟨?_, hq⟩
          exact active_length_after_insertion _ hlen hrun
        · simp only [hrun, if_false]
          refine ⟨hlen, ?_⟩
          intro j hj
          rcases List.mem_append.mp hj with h | h
          · exact hq j h
          · simp at h; simp [h]
  | update pid st stp pr er =>
    simp only [applyOp, updateJob]
    by_cases hfind : (s.activeJobs.find? (fun j => j.paperId = pid)).isSome
    · simp only [hfind, if_true]
      set active' := s.activeJobs.map
        (fun j => if j.paperId = pid then applyUpdate j st stp pr er else j) with hact
      have hlen' : active'.length ≤ MAX_JOBS := by
        rw [hact, List.length_map]; exact hlen
      by_cases hterm : isTerminal st
      · simp only [hterm, if_true, processQueueUnsafe]
        cases hqj : s.queuedJobs with
        | nil => exact ⟨hlen', by simp⟩
        | cons nextJob rest =>
          simp only
          by_cases hrun : (runningJobs active').length < MAX_JOBS
          · simp only [hrun, if_true]
            refine ⟨active_length_after_insertion _ hlen' hrun, ?_⟩
            intro j hj
            exact hq j (by rw [hqj]; exact List.mem_cons_of_mem _ hj)
          · simp only [hrun, if_false]
            refine ⟨hlen', ?_⟩
            intro j hj
            exact hq j (by rw [hqj]; exact hj)
      · simp only [hterm, if_false]
        exact ⟨hlen', hq⟩
    · simp only [hfind, if_false]
      exact ⟨hlen, hq⟩

theorem mgrInv_runOps (ops : List MgrOp) : MgrInv (runOps ops) := by
  rw [runOps]
  induction ops using List.reverseRecOn with
  | nil => exact mgrInv_init
  | append_singleton ops op ih =>
    rw [List.foldl_append, List.foldl_cons, List.foldl_nil]
    exact mgrInv_applyOp ih op

/-- The queued job appended by an `add_job` call that hits the queue branch. -/
def queuedVariant (pid : String) (title : Option String) (s : MgrState) : Job :=
  { newJob pid title s.clock with status := "queued" }

theorem addJob_queue_shape (pid : String) (title : Option String) (s : MgrState) :
    (addJob pid title s).1.queuedJobs = s.queuedJobs ∨
    (addJob pid title s).1.queuedJobs =
      s.queuedJobs ++ [queuedVariant pid title s] := by
  unfold addJob
  cases hfind : s.activeJobs.find? (fun j => j.paperId = pid) with
  | some j => left; rfl
  | none =>
    simp only
    by_cases hqf : (s.queuedJobs.find? (fun j => j.paperId = pid)).isSome
    · simp only [hqf, if_true]; left; trivial
    · simp only [hqf, if_false]
      by_cases hrun : (runningJobs s.activeJobs).length < MAX_JOBS
      · simp only [hrun, if_true]; left; trivial
      · simp only [hrun, if_false]; right; trivial

theorem updateJob_promotes_at_most_head (pid st : String) (stp : Option String)
    (pr : Option Int) (er : Option String) (s : MgrState) :
    ((updateJob pid st stp pr er s).queuedJobs = s.queuedJobs ∨
      (updateJob pid st stp pr er s).queuedJobs = s.queuedJobs.tail) ∧
    (∀ j ∈ (updateJob pid st stp pr er s).activeJobs,
      (∃ j₀ ∈ s.activeJobs, j.paperId = j₀.paperId) ∨
      (∃ h, s.queuedJobs.head? = some h ∧ j.paperId = h.paperId ∧
        j.status = "pending")) := by
  unfold updateJob
  by_cases hfind : (s.activeJobs.find? (fun j => j.paperId = pid)).isSome
  · simp only [hfind, if_true]
    set active' := s.activeJobs.map
      (fun j => if j.paperId = pid then applyUpdate j st stp pr er else j) with hact
    have hmemAct : ∀ j ∈ active', ∃ j₀ ∈ s.activeJobs, j.paperId = j₀.paperId := by
      intro j hj
      rw [hact] at hj
      rcases List.mem_map.mp hj with ⟨j₀, hj₀, hje⟩
      refine ⟨j₀, hj₀, ?_⟩
      by_cases hp : j₀.paperId = pid
      · simp [hp] at hje; simp [← hje, applyUpdate, hp]
      · simp [hp] at hje; simp [← hje]
    by_cases hterm : isTerminal st
    · simp only [hterm, if_true, processQueueUnsafe]
      cases hqj : s.queuedJobs with
      | nil =>
        constructor
        · left; rfl
        · intro j hj; exact Or.inl (hmemAct j hj)
      | cons nextJob rest =>
        simp only
        by_cases hrun : (runningJobs active').length < MAX_JOBS
        · simp only [hrun, if_true]
          constructor
          · right; simp [hqj]
          · intro j hj
            simp only [List.mem_append, List.mem_singleton] at hj
            rcases hj with hj | hj
            · by_cases hfull : active'.length ≥ MAX_JOBS
              · simp only [hfull, if_true] at hj
                exact Or.inl (hmemAct j (evictOldestTerminal_subset hj))
              · simp only [hfull, if_false] at hj
                exact Or.inl (hmemAct j hj)
            · right
              exact ⟨nextJob, by simp [hqj], by simp [hj], by simp [hj]⟩
        · simp only [hrun, if_false]
          constructor
          · left; trivial
          · intro j hj; exact Or.inl (hmemAct j hj)
    · simp only [hterm, if_false]
      constructor
      · left; trivial
      · intro j hj; exact Or.inl (hmemAct j hj)
  · simp only [hfind, if_false]
    constructor
    · left; trivial
    · intro j hj
      exact Or.inl ⟨j, hj, rfl⟩

/-- C1: for every interleaving of `add_job` and `update_job` calls on one
`IngestionJobManager`, at most `MAX_JOBS` (`MAX_CONCURRENT_JOBS`) tracked jobs
are simultaneously active in a non-terminal status (not `"completed"` /
`"failed"`); every job tracked beyond the active dict sits in the FIFO queue
with status `"queued"`, where `add_job` only ever appends at the tail; and an
`update_job` call removes at most the queue head, the only job it can promote
into the active set (re-admitted with status `"pending"`). -/
theorem ingestion_concurrency_bound_fifo (ops : List MgrOp) :
    (runningJobs (runOps ops).activeJobs).length ≤ MAX_JOBS ∧
    (∀ j ∈ (runOps ops).queuedJobs, j.status = "queued") ∧
    (∀ pid title,
      (addJob pid title (runOps ops)).1.queuedJobs = (runOps ops).queuedJobs ∨
      (addJob pid title (runOps ops)).1.queuedJobs =
        (runOps ops).queuedJobs ++ [queuedVariant pid title (runOps ops)]) ∧
    (∀ pid st stp pr er,
      ((updateJob pid st stp pr er (runOps ops)).queuedJobs =
          (runOps ops).queuedJobs ∨
        (updateJob pid st stp pr er (runOps ops)).queuedJobs =
          (runOps ops).queuedJobs.tail) ∧
      (∀ j ∈ (updateJob pid st stp pr er (runOps ops)).activeJobs,
        (∃ j₀ ∈ (runOps ops).activeJobs, j.paperId = j₀.paperId) ∨
        (∃ h, (runOps ops).queuedJobs.head? = some h ∧ j.paperId = h.paperId ∧
          j.status = "pending"))) := by
  rcases mgrInv_runOps ops with ⟨hlen, hq⟩
  refine ⟨?_, hq, ?_, ?_⟩
  · exact le_trans (List.length_filter_le _ _) hlen
  · intro pid title
    exact addJob_queue_shape pid title (runOps ops)
  · intro pid st stp pr er
    exact updateJob_promotes_at_most_head pid st stp pr er (runOps ops)

/-! ## Python string primitives (ASCII model)

Strings flowing through `docling_parser.py` are modelled as `List Char`;
character classes (`str.lower`, `str.strip`, `\s`, `\w`, `str.isdigit`) are
the ASCII restrictions of Python's Unicode-aware versions, which agree on the
inputs considered here. -/

/-- Python `str.lower()`. -/
def pyLower (s : List Char) : List Char := s.map Char.toLower

/-- Python whitespace (`str.strip`, regex `\s`), ASCII subset. -/
def isPyWs (c : Char) : Bool :=
  c = ' ' || c = '\t' || c = '\n' || c = '\r' || c = '\x0b' || c = '\x0c'

/-- Python `str.strip()`. -/
def pyStrip (s : List Char) : List Char :=
  ((s.dropWhile isPyWs).reverse.dropWhile isPyWs).reverse

/-- Python `str.split(sep)` for a one-character separator: always returns one
more part than there are separator occurrences. -/
def splitChar (sep : Char) : List Char → List (List Char)
  | [] => [[]]
  | c :: rest =>
    if c = sep then [] :: splitChar sep rest
    else
      match splitChar sep rest with
      | p :: ps => (c :: p) :: ps
      | [] => [[c]]

/-- Python `str.splitlines()` for `\n`-separated text: like splitting on
`'\n'` except that a trailing newline yields no final empty line and the
empty string yields no lines. -/
def pySplitlines (s : List Char) : List (List Char) :=
  if s = [] then []
  else
    let parts := splitChar '\n' s
    if s.getLast? = some '\n' then parts.dropLast else parts

/-- `"\n".join(lines)`. -/
def joinLines : List (List Char) → List Char
  | [] => []
  | [l] => l
  | l :: rest => l ++ '\n' :: joinLines rest

/-! ## DoclingParser.scan_markdown_structure -/

/-- Value stored in the outline dict: section bodies are strings, except that
the `"references"` entry is re-assigned to a list of lines before the scanner
returns. -/
inductive OutVal where
  | prose (content : List Char)
  | refs (lines : List (List Char))
deriving DecidableEq

/-- Python `dict` insertion: re-assigning an existing key keeps its original
position, a new key is appended. -/
def dictInsert (k : List Char) (v : OutVal) :
    List (List Char × OutVal) → List (List Char × OutVal)
  | [] => [(k, v)]
  | (k', v') :: rest =>
    if k' = k then (k, v) :: rest else (k', v') :: dictInsert k v rest

/-- Key lookup in an insertion-ordered dict. -/
def dictLookup {α : Type} (k : List Char) : List (List Char × α) → Option α
  | [] => none
  | (k', v) :: rest => if k' = k then some v else dictLookup k rest

/-- Python `key in dict`. -/
def dictContains {α : Type} (k : List Char) (l : List (List Char × α)) : Bool :=
  (dictLookup k l).isSome

/-- Python `del dict[key]`. -/
def dictRemove {α : Type} (k : List Char) :
    List (List Char × α) → List (List Char × α)
  | [] => []
  | (k', v) :: rest => if k' = k then rest else (k', v) :: dictRemove k rest

/-- `HEADING_PATTERN = re.compile(r"^(#{1,6})\s+(.*)$")` applied to one line
via `.match`, returning `group(2).strip()`: one to six leading hashes followed
by at least one whitespace character; the rest of the line is the title. -/
def matchHeading (line : List Char) : Option (List Char) :=
  let k := (line.takeWhile (fun c => c = '#')).length
  if 1 ≤ k ∧ k ≤ 6 then
    match line.drop k with
    | [] => none
    | c :: rest => if isPyWs c then some (pyStrip (c :: rest)) else none
  else none

/-- Whether a line is a heading line. -/
def isHeadingLine (line : List Char) : Bool := (matchHeading line).isSome

/-- The scan loop of `scan_markdown_structure`: every line is visited; at a
heading line the following lines up to (not including) the next heading line
are joined and stripped to form that section's content. -/
def scanLines : List (List Char) → List (List Char × OutVal) →
    List (List Char × OutVal)
  | [], acc => acc
  | l :: rest, acc =>
    match matchHeading l with
    | some title =>
      let contentLines := rest.takeWhile (fun nl => ¬ isHeadingLine nl)
      scanLines rest (dictInsert title (.prose (pyStrip (joinLines contentLines))) acc)
    | none => scanLines rest acc

/-- `DoclingParser.scan_markdown_structure`: lower-case every line, build the
heading → content outline in source order, then split the `"references"`
entry (when present) into one string per line. -/
def scanMarkdownStructure (md : List Char) : List (List Char × OutVal) :=
  let lines := (pySplitlines md).map pyLower
  let st := scanLines lines []
  match dictLookup ("references".data) st with
  | some (.prose c) => dictInsert ("references".data) (.refs (splitChar '\n' c)) st
  | _ => st

/-- Input of C5: a document whose heading lines are, in order,
`"Title"`, `"Abstract"`, `"1 Introduction"`, `"2 Methods"`. -/
def mdOutlineC5 : List Char :=
  ("# Title\nIntro text here.\n# Abstract\nAn abstract.\n# 1 Introduction\nBody.\n# 2 Methods\nStuff.").data

/-- C5: for a document with heading lines
`["Title","Abstract","1 Introduction","2 Methods"]`, the scanned outline
preserves source order (lower-cased), the first heading is the paper title
(`parse` deletes it by key, as `dictRemove` does), and the remaining outline
keys are `["abstract","1 introduction","2 methods"]` in that order. -/
theorem outline_order_title_removed :
    (scanMarkdownStructure mdOutlineC5).map Prod.fst =
      ["title".data, "abstract".data, "1 introduction".data, "2 methods".data] ∧
    ((scanMarkdownStructure mdOutlineC5).head?.map Prod.fst = some ("title".data)) ∧
    (dictRemove ("title".data) (scanMarkdownStructure mdOutlineC5)).map Prod.fst =
      ["abstract".data, "1 introduction".data, "2 methods".data] := by
  decide


/-! ## Figure extraction regexes (docling_parser.py lines 238-363)

`extract_figures` runs two regexes with `re.finditer` (leftmost,
non-overlapping) and `re.DOTALL`:
`figure (\d+): (.*?)\.\n\n!\[image\]\(data:image\/png;base64,([^)]+)\)` and
`!\[image\]\(data:image\/png;base64,([^)]+)\)`.  Both are implemented here as
direct matchers on `List Char`. -/

/-- The character class `[^)]`. -/
def notRParen (c : Char) : Bool := !(c == ')')

/-- Match a literal prefix, returning the remainder. -/
def stripPrefixChars : List Char → List Char → Option (List Char)
  | [], s => some s
  | _ :: _, [] => none
  | p :: ps, c :: cs => if c = p then stripPrefixChars ps cs else none

/-- The literal body of the base64 image pattern. -/
def litB64 : List Char := ("![image](data:image/png;base64,").data

/-- Match `!\[image\]\(data:image\/png;base64,([^)]+)\)` at the head of `s`:
the literal, then a greedy non-empty run of non-`)` characters (the captured
group), then `)`.  Returns the group and the remainder after the match. -/
def matchB64At (s : List Char) : Option (List Char × List Char) :=
  match stripPrefixChars litB64 s with
  | none => none
  | some s1 =>
    match s1.dropWhile notRParen with
    | ')' :: rest =>
      match s1.takeWhile notRParen with
      | [] => none
      | d0 :: ds => some (d0 :: ds, rest)
    | _ => none

theorem stripPrefixChars_length {p s r : List Char}
    (h : stripPrefixChars p s = some r) : p.length + r.length = s.length := by
  induction p generalizing s with
  | nil => simp [stripPrefixChars] at h; simp [h]
  | cons a ps ih =>
    cases s with
    | nil => simp [stripPrefixChars] at h
    | cons c cs =>
      simp only [stripPrefixChars] at h
      by_cases hc : c = a
      · simp only [hc, if_true] at h
        have := ih h
        simp only [List.length_cons]
        omega
      · simp [hc] at h

theorem matchB64At_spec {s d rest : List Char}
    (h : matchB64At s = some (d, rest)) :
    litB64.length + d.length + 1 + rest.length = s.length ∧
    d ≠ [] ∧ ∀ c ∈ d, c ≠ ')' := by
  unfold matchB64At at h
  split at h
  · cases h
  case _ s1 heq =>
    split at h
    case _ rest0 heq2 =>
      split at h
      · cases h
      case _ d0 ds heq3 =>
        simp only [Option.some.injEq, Prod.mk.injEq] at h
        rcases h with ⟨hdeq, hreq⟩
        have hlen1 := stripPrefixChars_length heq
        have hlen2 : (s1.takeWhile notRParen).length +
            (s1.dropWhile notRParen).length = s1.length := by
          rw [← List.length_append, List.takeWhile_append_dropWhile notRParen s1]
        rw [heq2, heq3] at hlen2
        refine ⟨?_, ?_, ?_⟩
        · subst hdeq; subst hreq
          simp only [List.length_cons] at hlen2 ⊢
          omega
        · subst hdeq; simp
        · subst hdeq
          intro c hc
          rw [← heq3] at hc
          have := List.mem_takeWhile_imp hc
          simpa [notRParen] using this
    · cases h

/-- `re.finditer` with the bare base64 pattern: scan left to right, at each
position try the match; on success record the group and resume after the
match, otherwise keep the character and advance one position.  Returns the
captured groups and the input with the matched blocks removed
(`_extract_and_remove_data`).  The scan consumes at least one character per
step, so `s.length` is enough fuel; the fuel keeps the recursion structural. -/
def scanB64F : Nat → List Char → List (List Char) × List Char
  | _, [] => ([], [])
  | 0, s => ([], s)
  | fuel + 1, c :: cs =>
    match matchB64At (c :: cs) with
    | some (d, rest) =>
      let r := scanB64F fuel rest
      (d :: r.1, r.2)
    | none =>
      let r := scanB64F fuel cs
      (r.1, c :: r.2)

def scanB64 (s : List Char) : List (List Char) × List Char :=
  scanB64F s.length s

theorem matchB64At_rest_le {c : Char} {cs d rest : List Char}
    (h : matchB64At (c :: cs) = some (d, rest)) : rest.length ≤ cs.length := by
  have := (matchB64At_spec h).1
  simp only [List.length_cons] at this
  omega

theorem scanB64F_fuel_eq : ∀ (n : Nat) (s : List Char), s.length ≤ n →
    ∀ {f1 f2 : Nat}, s.length ≤ f1 → s.length ≤ f2 →
    scanB64F f1 s = scanB64F f2 s := by
  intro n
  induction n with
  | zero =>
    intro s hs f1 f2 h1 h2
    have hnil : s = [] := List.eq_nil_of_length_eq_zero (Nat.le_zero.mp hs)
    subst hnil
    cases f1 <;> cases f2 <;> rfl
  | succ n ih =>
    intro s hs f1 f2 h1 h2
    cases s with
    | nil => cases f1 <;> cases f2 <;> rfl
    | cons c cs =>
      simp only [List.length_cons] at hs h1 h2
      cases f1 with
      | zero => omega
      | succ g1 =>
        cases f2 with
        | zero => omega
        | succ g2 =>
          simp only [scanB64F]
          cases hm : matchB64At (c :: cs) with
          | some pr =>
            rcases pr with ⟨d, rest⟩
            have hle := matchB64At_rest_le hm
            dsimp only
            rw [@ih rest (by omega) g1 g2 (by omega) (by omega)]
          | none =>
            dsimp only
            rw [@ih cs (by omega) g1 g2 (by omega) (by omega)]

/-- Unfolding rule for `scanB64` on a non-empty input. -/
theorem scanB64_cons (c : Char) (cs : List Char) :
    scanB64 (c :: cs) =
      match matchB64At (c :: cs) with
      | some (d, rest) => (d :: (scanB64 rest).1, (scanB64 rest).2)
      | none => ((scanB64 cs).1, c :: (scanB64 cs).2) := by
  show scanB64F (cs.length + 1) (c :: cs) = _
  simp only [scanB64F]
  cases hm : matchB64At (c :: cs) with
  | some pr =>
    rcases pr with ⟨d, rest⟩
    have hle := matchB64At_rest_le hm
    unfold scanB64
    dsimp only
    rw [scanB64F_fuel_eq rest.length rest (le_refl _) hle (le_refl _)]
  | none =>
    unfold scanB64
    rfl

/-- The fixed tail of the caption pattern after the lazy caption group:
`\.\n\n` followed by the base64 image pattern. -/
def matchFigTailAt (s : List Char) : Option (List Char × List Char) :=
  match stripPrefixChars ('.' :: '\n' :: '\n' :: litB64) s with
  | none => none
  | some s1 =>
    match s1.dropWhile notRParen with
    | ')' :: rest =>
      match s1.takeWhile notRParen with
      | [] => none
      | d0 :: ds => some (d0 :: ds, rest)
    | _ => none

theorem matchFigTailAt_length {s d rest : List Char}
    (h : matchFigTailAt s = some (d, rest)) : rest.length < s.length := by
  unfold matchFigTailAt at h
  split at h
  · cases h
  case _ s1 heq =>
    split at h
    case _ rest0 heq2 =>
      split at h
      · cases h
      case _ d0 ds heq3 =>
        simp only [Option.some.injEq, Prod.mk.injEq] at h
        rcases h with ⟨hdeq, hreq⟩
        have hlen1 := stripPrefixChars_length heq
        have hlen2 : (s1.takeWhile notRParen).length +
            (s1.dropWhile notRParen).length = s1.length := by
          rw [← List.length_append, List.takeWhile_append_dropWhile notRParen s1]
        rw [heq2, heq3] at hlen2
        subst hreq
        simp only [List.length_cons] at hlen1 hlen2
        omega
    · cases h

/-- The lazy group `(.*?)` of the caption pattern under `re.DOTALL`: the
shortest caption (any characters, newlines included) whose suffix matches the
fixed tail.  Returns caption, base64 data and the remainder after the match. -/
def lazyCaption : List Char → Option (List Char × List Char × List Char)
  | [] =>
    (match matchFigTailAt [] with
     | some (d, rest) => some ([], d, rest)
     | none => none)
  | c :: cs =>
    match matchFigTailAt (c :: cs) with
    | some (d, rest) => some ([], d, rest)
    | none =>
      match lazyCaption cs with
      | some (cap, d, rest) => some (c :: cap, d, rest)
      | none => none

theorem lazyCaption_length {s cap d rest : List Char}
    (h : lazyCaption s = some (cap, d, rest)) : rest.length < s.length := by
  induction s generalizing cap d rest with
  | nil =>
    simp only [lazyCaption] at h
    split at h
    case _ d0 rest0 ht =>
      have := matchFigTailAt_length ht
      simp at this
    · cases h
  | cons c cs ih =>
    simp only [lazyCaption] at h
    split at h
    case _ d0 rest0 ht =>
      simp only [Option.some.injEq, Prod.mk.injEq] at h
      rcases h with ⟨_, _, hr⟩
      subst hr
      exact matchFigTailAt_length ht
    case _ ht =>
      split at h
      case _ cap0 d0 rest0 hl =>
        simp only [Option.some.injEq, Prod.mk.injEq] at h
        rcases h with ⟨hcap, hd, hr⟩
        subst hd; subst hr
        exact Nat.lt_succ_of_lt (ih hl)
      · cases h

/-- Match the full caption pattern
`figure (\d+): (.*?)\.\n\n!\[image\]\(data:image\/png;base64,([^)]+)\)` at
the head of `s`.  `(\d+)` is a greedy digit run (necessarily maximal, since
the next pattern character `:` is not a digit).  Returns the three captured
groups and the remainder after the match. -/
def matchFigAt (s : List Char) :
    Option ((List Char × List Char × List Char) × List Char) :=
  match stripPrefixChars (("figure ").data) s with
  | none => none
  | some s1 =>
    match s1.takeWhile Char.isDigit with
    | [] => none
    | d0 :: ds =>
      match stripPrefixChars ((": ").data) (s1.dropWhile Char.isDigit) with
      | none => none
      | some s2 =>
        match lazyCaption s2 with
        | some (cap, d, rest) => some (((d0 :: ds), cap, d), rest)
        | none => none

theorem matchFigAt_length {s : List Char} {g : List Char × List Char × List Char}
    {rest : List Char} (h : matchFigAt s = some (g, rest)) :
    rest.length < s.length := by
  unfold matchFigAt at h
  split at h
  · cases h
  case _ s1 heq =>
    split at h
    · cases h
    case _ d0 ds heq1 =>
      split at h
      · cases h
      case _ s2 heq2 =>
        split at h
        case _ cap d rest0 heq3 =>
          simp only [Option.some.injEq, Prod.mk.injEq] at h
          rcases h with ⟨_, hr⟩
          subst hr
          have h1 := stripPrefixChars_length heq
          have h2 := stripPrefixChars_length heq2
          have h3 := lazyCaption_length heq3
          have h4 : (s1.takeWhile Char.isDigit).length +
              (s1.dropWhile Char.isDigit).length = s1.length := by
            rw [← List.length_append, List.takeWhile_append_dropWhile Char.isDigit s1]
          rw [heq1] at h4
          simp only [List.length_cons] at h1 h2 h4
          omega
        · cases h

/-- `re.finditer` with the caption pattern (`_extract_fig_remove_data`):
returns the captured group tuples in match order and the input with the
matched blocks removed; fuel-structured like `scanB64F`. -/
def scanFigF : Nat → List Char →
    List (List Char × List Char × List Char) × List Char
  | _, [] => ([], [])
  | 0, s => ([], s)
  | fuel + 1, c :: cs =>
    match matchFigAt (c :: cs) with
    | some (g, rest) =>
      let r := scanFigF fuel rest
      (g :: r.1, r.2)
    | none =>
      let r := scanFigF fuel cs
      (r.1, c :: r.2)

def scanFig (s : List Char) :
    List (List Char × List Char × List Char) × List Char :=
  scanFigF s.length s

theorem matchFigAt_rest_le {c : Char}
    {cs : List Char} {g : List Char × List Char × List Char} {rest : List Char}
    (h : matchFigAt (c :: cs) = some (g, rest)) : rest.length ≤ cs.length := by
  have := matchFigAt_length h
  simp only [List.length_cons] at this
  omega

theorem scanFigF_fuel_eq : ∀ (n : Nat) (s : List Char), s.length ≤ n →
    ∀ {f1 f2 : Nat}, s.length ≤ f1 → s.length ≤ f2 →
    scanFigF f1 s = scanFigF f2 s := by
  intro n
  induction n with
  | zero =>
    intro s hs f1 f2 h1 h2
    have hnil : s = [] := List.eq_nil_of_length_eq_zero (Nat.le_zero.mp hs)
    subst hnil
    cases f1 <;> cases f2 <;> rfl
  | succ n ih =>
    intro s hs f1 f2 h1 h2
    cases s with
    | nil => cases f1 <;> cases f2 <;> rfl
    | cons c cs =>
      simp only [List.length_cons] at hs h1 h2
      cases f1 with
      | zero => omega
      | succ g1 =>
        cases f2 with
        | zero => omega
        | succ g2 =>
          simp only [scanFigF]
          cases hm : matchFigAt (c :: cs) with
          | some pr =>
            rcases pr with ⟨g, rest⟩
            have hle := matchFigAt_rest_le hm
            dsimp only
            rw [@ih rest (by omega) g1 g2 (by omega) (by omega)]
          | none =>
            dsimp only
            rw [@ih cs (by omega) g1 g2 (by omega) (by omega)]

/-- Unfolding rule for `scanFig` on a non-empty input. -/
theorem scanFig_cons (c : Char) (cs : List Char) :
    scanFig (c :: cs) =
      match matchFigAt (c :: cs) with
      | some (g, rest) => (g :: (scanFig rest).1, (scanFig rest).2)
      | none => ((scanFig cs).1, c :: (scanFig cs).2) := by
  show scanFigF (cs.length + 1) (c :: cs) = _
  simp only [scanFigF]
  cases hm : matchFigAt (c :: cs) with
  | some pr =>
    rcases pr with ⟨g, rest⟩
    have hle := matchFigAt_rest_le hm
    unfold scanFig
    dsimp only
    rw [scanFigF_fuel_eq rest.length rest (le_refl _) hle (le_refl _)]
  | none =>
    unfold scanFig
    rfl

/-! ## DoclingParser.extract_figures -/

/-- One entry of `all_figures`.  `figure_id` is produced by
`int(group_value)` and is therefore an integer; the caption and data groups
receive `.strip()`.  `extract_figures` appends the very same dict both to the
section's `figs` list and to `all_figures` before adding the
`section`/`paper_id`/`data` keys, so the outline's `figs` entries carry the
full record. -/
structure FigRec where
  figureId : Nat
  caption : List Char
  sectionKey : List Char
  paperId : String
  data : List Char
deriving DecidableEq

/-- Outline value after `extract_figures`: non-references sections become
`{figs, content}` dicts; the `references` entry is skipped and keeps its
scanner value. -/
inductive ExtVal where
  | sec (figs : List FigRec) (content : List Char)
  | raw (v : OutVal)
deriving DecidableEq

/-- `int(ds)` for a non-empty digit string. -/
def digitsToNat (ds : List Char) : Nat :=
  ds.foldl (fun n c => 10 * n + (c.toNat - ('0').toNat)) 0

/-- Build the figure dict from one caption-pattern match
(`figure_id = int(g1)`, `caption = g2.strip()`, `data = g3.strip()`). -/
def toFigRec (pid : String) (key : List Char)
    (g : List Char × List Char × List Char) : FigRec :=
  { figureId := digitsToNat g.1
    caption := pyStrip g.2.1
    sectionKey := key
    paperId := pid
    data := pyStrip g.2.2 }

/-- The `extract_figures` loop body for one non-references section: run the
caption pattern, then strip any remaining bare base64 blocks from the cleaned
content, discarding their data. -/
def processSection (pid : String) (key : List Char) (content : List Char) :
    List FigRec × ExtVal :=
  let r1 := scanFig content
  let figs := r1.1.map (toFigRec pid key)
  let r2 := scanB64 r1.2
  (figs, .sec figs r2.2)

/-- `DoclingParser.extract_figures`: returns `all_figures` (in outline order)
and the re-written outline.  A key equal to `"references"` is skipped
(`continue`), keeping its value.  A list-valued entry under any other key is
impossible for scanner outputs (only the references key holds a list); it is
carried through unchanged here, where Python would raise. -/
def extractFigures (outline : List (List Char × OutVal)) (pid : String) :
    List FigRec × List (List Char × ExtVal) :=
  match outline with
  | [] => ([], [])
  | (k, v) :: rest =>
    let r := extractFigures rest pid
    if k = ("references").data then (r.1, (k, .raw v) :: r.2)
    else
      match v with
      | .prose c =>
        let p := processSection pid k c
        (p.1 ++ r.1, (k, p.2) :: r.2)
      | .refs ls => (r.1, (k, .raw (.refs ls)) :: r.2)

/-! ## DoclingParser.parse (post-conversion core) -/

structure PFigure where
  id : Nat
  caption : List Char
deriving DecidableEq

structure PSection where
  title : List Char
  content : List Char
  sectionType : String
  sectionNum : Option (List Char)
  figures : List PFigure
deriving DecidableEq

structure PaperDocument where
  paper_id : String
  title : List Char
  abstract : List Char
  markdown_content : String
  sections : List PSection
  references : List (List Char)
deriving DecidableEq

/-- Python `i.split(" ", 1)` destructured into two variables: succeeds exactly
when the string contains a space (otherwise `sec, _ = ...` raises
`ValueError`). -/
def splitFirstSpace (s : List Char) : Option (List Char × List Char) :=
  match s.dropWhile (fun c => !(c == ' ')) with
  | ' ' :: rest => some (s.takeWhile (fun c => !(c == ' ')), rest)
  | _ => none

/-- `if sec[-1] == ".": sec = sec[:-1]`. -/
def stripTrailingDot (s : List Char) : List Char :=
  if s.getLast? = some '.' then s.dropLast else s

/-- The section/subsection classification in `DoclingParser.parse`
(lines 437-449), returning `(section_number, section_type)`.  `none` models a
raised exception: `IndexError` on an empty title, `ValueError` when a
digit-initial title contains no space for the two-variable split. -/
def classifySection (i : List Char) : Option (Option (List Char) × String) :=
  match i with
  | [] => none
  | c :: _ =>
    if c.isDigit then
      match splitFirstSpace i with
      | none => none
      | some (tok, _) =>
        let sec := stripTrailingDot tok
        if (splitChar '.' sec).length > 1 then some (some sec, "subsection")
        else some (some sec, "section")
    else some (none, "section")

/-- The `for i in paper_ir` section-building loop of `parse`; an `Except`
error models the exception that aborts `parse` (re-raised as
`RuntimeError`). -/
def buildSections : List (List Char × ExtVal) → Except String (List PSection)
  | [] => .ok []
  | e :: rest =>
    match classifySection e.1 with
    | none => .error ("ValueError")
    | some (sec, secType) =>
      match e.2 with
      | .raw _ => .error ("TypeError")
      | .sec figs content =>
        match buildSections rest with
        | .error msg => .error msg
        | .ok tl =>
          .ok ({ title := pyStrip e.1
                 content := content
                 sectionType := secType
                 sectionNum := sec
                 figures := figs.map (fun f => PFigure.mk f.figureId f.caption) } :: tl)

/-- `abs = paper_ir["abstract"]["content"] if "abstract" in paper_ir else ""`
(on scanner outputs the abstract entry, when present, is always a
`{figs, content}` dict). -/
def lookupAbstract (ir1 : List (List Char × ExtVal)) : List Char :=
  match dictLookup (("abstract").data) ir1 with
  | some (.sec _ content) => content
  | _ => []

/-- `references = paper_ir["references"] if "references" in paper_ir else []`
(on scanner outputs the references entry, when present, is always the list
produced by the scanner's split). -/
def lookupReferences (ir1 : List (List Char × ExtVal)) : List (List Char) :=
  match dictLookup (("references").data) ir1 with
  | some (.raw (.refs ls)) => ls
  | _ => []

/-- `parse` after the title has been read off the outline: delete the title
key, read the guarded abstract and references, delete `"references"`
unconditionally (raising `KeyError` when absent), then build the sections. -/
def parseAfterTitle (stem : String) (title : List Char)
    (ir : List (List Char × ExtVal)) : Except String PaperDocument :=
  if dictContains (("references").data) (dictRemove title ir) then
    match buildSections (dictRemove (("references").data) (dictRemove title ir)) with
    | .error msg => .error msg
    | .ok sections =>
      .ok { paper_id := stem
            title := pyStrip title
            abstract := lookupAbstract (dictRemove title ir)
            markdown_content := ""
            sections := sections
            references := lookupReferences (dictRemove title ir) }
  else .error ("KeyError")

/-- `DoclingParser.parse` from the converted markdown onward.  The Docling
PDF conversion, file writes, SQL inserts and logging are external effects;
`stem` is `pdf_path.stem`.  `Except.error` models the `RuntimeError` that
`parse` raises when any step of its body throws: `StopIteration` from
`next(iter(...))` on an empty outline, `KeyError` from the unconditional
`del paper_ir["references"]`, and the section-loop exceptions. -/
def parseCore (stem : String) (paperId : String) (md : List Char) :
    Except String PaperDocument :=
  match (extractFigures (scanMarkdownStructure md) paperId).2 with
  | [] => .error ("StopIteration")
  | (title, v) :: restIr => parseAfterTitle stem title ((title, v) :: restIr)

/-! ## C2: the figure round-trip example -/

/-- The section content of C2, exactly as the claim writes it. -/
def figContentC2 : List Char :=
  ("Figure 1: A diagram.\n\n![image](data:image/png;base64,ABC123)").data

/-- C2 as stated is false: `extract_figures` applied to the claim's
mixed-case content yields no figure record at all (the caption pattern is
lower-case and matches nothing), and the cleaned content still contains the
caption line — only the bare base64 block is stripped. -/
theorem figure_roundtrip_counterexample :
    (extractFigures [(("sec1").data, .prose figContentC2)] "p1").1 = [] ∧
    dictLookup (("sec1").data)
        (extractFigures [(("sec1").data, .prose figContentC2)] "p1").2 =
      some (.sec [] (("Figure 1: A diagram.\n\n").data)) := by
  constructor
  · rfl
  · rfl

/-- The C2 content with the caption keyword in the case the pattern expects
(the scanner lower-cases all lines before extraction ever sees them). -/
def figContentC2Fixed : List Char :=
  ("figure 1: A diagram.\n\n![image](data:image/png;base64,ABC123)").data

/-- C2 amended: with the caption keyword lower-cased (as the structure
scanner guarantees), extraction yields exactly one figure record with
`figure_id` the integer `1`, caption `"A diagram"`, and data `"ABC123"`, and
the cleaned section content is empty — it contains neither the caption line
nor the base64 block. -/
theorem figure_roundtrip_amended :
    (extractFigures [(("sec1").data, .prose figContentC2Fixed)] "p1").1 =
      [{ figureId := 1, caption := ("A diagram").data, sectionKey := ("sec1").data,
         paperId := "p1", data := ("ABC123").data }] ∧
    dictLookup (("sec1").data)
        (extractFigures [(("sec1").data, .prose figContentC2Fixed)] "p1").2 =
      some (.sec [{ figureId := 1, caption := ("A diagram").data,
                    sectionKey := ("sec1").data, paperId := "p1",
                    data := ("ABC123").data }] []) := by
  constructor
  · rfl
  · rfl

/-! ## C6: subsection classification -/

/-- The claim's reading of "leading numeric group": the maximal prefix of
digits and dots. -/
def leadingNumGroup (s : List Char) : List Char :=
  s.takeWhile (fun c => c.isDigit || c == '.')

theorem splitChar_ne_nil (sep : Char) (s : List Char) : splitChar sep s ≠ [] := by
  cases s with
  | nil => simp [splitChar]
  | cons c rest =>
    simp only [splitChar]
    by_cases hc : c = sep
    · simp [hc]
    · simp only [hc, if_false]
      cases h : splitChar sep rest with
      | nil => simp
      | cons p ps => simp

/-- Python `len(s.split(sep)) > 1` says exactly that `sep` occurs in `s`. -/
theorem splitChar_length_gt_one_iff (sep : Char) (s : List Char) :
    (splitChar sep s).length > 1 ↔ sep ∈ s := by
  induction s with
  | nil => simp [splitChar]
  | cons c rest ih =>
    simp only [splitChar]
    by_cases hc : c = sep
    · subst hc
      simp only [if_true]
      constructor
      · intro _; exact List.mem_cons_self _ _
      · intro _
        have := splitChar_ne_nil c rest
        cases h : splitChar c rest with
        | nil => exact absurd h this
        | cons p ps => simp [h]
    · simp only [hc, if_false]
      cases h : splitChar sep rest with
      | nil => exact absurd h (splitChar_ne_nil sep rest)
      | cons p ps =>
        rw [h] at ih
        simp only [List.length_cons, List.mem_cons] at ih ⊢
        constructor
        · intro hlen
          exact Or.inr (ih.mp hlen)
        · intro hmem
          rcases hmem with hmem | hmem
          · exact absurd hmem.symm hc
          · exact ih.mpr hmem

theorem dropWhile_until_mem {a : Char} {s : List Char} (h : a ∈ s) :
    ∃ rest, s.dropWhile (fun c => !(c == a)) = a :: rest := by
  induction s with
  | nil => cases h
  | cons c cs ih =>
    by_cases hc : c = a
    · subst hc
      refine ⟨cs, ?_⟩
      rw [List.dropWhile_cons]
      simp
    · rcases List.mem_cons.mp h with h' | h'
      · exact absurd h'.symm hc
      · rcases ih h' with ⟨rest, hrest⟩
        refine ⟨rest, ?_⟩
        rw [List.dropWhile_cons]
        simpa [hc] using hrest

/-- C6 as stated (quantified over every digit-initial heading) is false: the
heading `"3.2"` begins with a digit and its leading numeric group, after
stripping a trailing dot, has two dot-separated components, yet the parser
does not classify it as a subsection — `i.split(" ", 1)` cannot be unpacked
into two variables (no space), so `parse` raises instead of classifying. -/
theorem subsection_claim_counterexample :
    ¬ (((classifySection (("3.2").data)).map Prod.snd = some ("subsection")) ↔
      (splitChar '.' (stripTrailingDot (leadingNumGroup (("3.2").data)))).length > 1) := by
  decide

/-- C6 amended: for every heading that begins with a digit and contains a
space, classification succeeds and yields a subsection exactly when the text
before the first space, stripped of one trailing dot, still contains a dot
(equivalently: splits into more than one dot-separated component).  A
digit-initial heading with no space makes `parse` raise instead. -/
theorem subsection_classification (c : Char) (cs : List Char)
    (hd : c.isDigit = true) (hs : ' ' ∈ c :: cs) :
    (classifySection (c :: cs)).isSome = true ∧
    ((classifySection (c :: cs)).map Prod.snd = some ("subsection") ↔
      '.' ∈ stripTrailingDot ((c :: cs).takeWhile (fun x => !(x == ' ')))) := by
  rcases dropWhile_until_mem hs with ⟨rest, hrest⟩
  have hsplit : splitFirstSpace (c :: cs) =
      some ((c :: cs).takeWhile (fun x => !(x == ' ')), rest) := by
    unfold splitFirstSpace
    rw [hrest]
    rfl
  simp only [classifySection, hd, if_true, hsplit]
  set tok := (c :: cs).takeWhile (fun x => !(x == ' ')) with htok
  by_cases hcount : (splitChar '.' (stripTrailingDot tok)).length > 1
  · simp only [hcount, if_true]
    constructor
    · rfl
    · constructor
      · intro _
        exact (splitChar_length_gt_one_iff '.' (stripTrailingDot tok)).mp hcount
      · intro _; rfl
  · simp only [hcount, if_false]
    constructor
    · rfl
    · constructor
      · intro hx
        simp only [Option.map_some, Option.some.injEq] at hx
        exact absurd hx (by simp)
      · intro hx
        exact absurd ((splitChar_length_gt_one_iff '.' (stripTrailingDot tok)).mpr hx) hcount

/-- Closed check of the two concrete C6 instances through the amended
theorem: `"3.2 ablation study"` is a subsection, `"3 results"` is not. -/
theorem subsection_classification_witness :
    ((classifySection (("3.2 ablation study").data)).map Prod.snd =
      some ("subsection")) ∧
    ¬ ((classifySection (("3 results").data)).map Prod.snd =
      some ("subsection")) := by
  constructor
  · exact (subsection_classification '3' ((".2 ablation study").data)
      (by decide) (by decide)).2.mpr (by decide)
  · intro hx
    exact absurd ((subsection_classification '3' ((" results").data)
      (by decide) (by decide)).2.mp hx) (by decide)

/-! ## C8: stray base64 blocks -/

/-- Total length of the full matched blocks belonging to a list of captured
data groups. -/
def b64BlocksLen (ds : List (List Char)) : Nat :=
  (ds.map (fun d => litB64.length + d.length + 1)).sum

/-- Every block matched by the stray-base64 pass is removed wholesale: the
cleaned string accounts for the input minus the full matched blocks, and each
captured data group is a non-empty run of non-`)` characters that the
function then discards. -/
theorem scanB64_strips_blocks : ∀ (n : Nat) (s : List Char), s.length ≤ n →
    (scanB64 s).2.length + b64BlocksLen (scanB64 s).1 = s.length ∧
    ∀ d ∈ (scanB64 s).1, d ≠ [] ∧ ∀ ch ∈ d, ch ≠ ')' := by
  intro n
  induction n with
  | zero =>
    intro s hs
    have hnil : s = [] := List.eq_nil_of_length_eq_zero (Nat.le_zero.mp hs)
    subst hnil
    constructor
    · rfl
    · intro d hmem; cases hmem
  | succ n ih =>
    intro s hs
    cases s with
    | nil =>
      constructor
      · rfl
      · intro d hmem; cases hmem
    | cons c cs =>
      simp only [List.length_cons] at hs
      rw [scanB64_cons]
      cases hm : matchB64At (c :: cs) with
      | some pr =>
        rcases pr with ⟨d, rest⟩
        dsimp only
        rcases matchB64At_spec hm with ⟨hlen, hne, hnp⟩
        have hle := matchB64At_rest_le hm
        rcases ih rest (by omega) with ⟨ihlen, ihmem⟩
        constructor
        · simp only [b64BlocksLen, List.map_cons, List.sum_cons] at ihlen ⊢
          simp only [List.length_cons] at hlen ⊢
          omega
        · intro d' hd'
          rcases List.mem_cons.mp hd' with h' | h'
          · subst h'; exact ⟨hne, hnp⟩
          · exact ihmem d' h'
      | none =>
        dsimp only
        rcases ih cs (by omega) with ⟨ihlen, ihmem⟩
        constructor
        · simp only [List.length_cons]
          omega
        · exact ihmem

/-- C8 as stated is false: one-pass non-overlapping removal can splice
together a new base64 block at a removal seam.  On this section content the
caption pattern matches nothing, the stray pass removes the single block it
finds, and the glued remainder is itself a base64 image block, which the
cleaned content therefore still contains. -/
def strayContentC8 : List Char :=
  ("x![ima![image](data:image/png;base64,DATA)ge](data:image/png;base64,XYZ)").data

theorem stray_block_counterexample :
    dictLookup (("sec").data)
        (extractFigures [(("sec").data, .prose strayContentC8)] "p").2 =
      some (.sec [] (("x![image](data:image/png;base64,XYZ)").data)) ∧
    (scanB64 (("x![image](data:image/png;base64,XYZ)").data)).1 =
      [("XYZ").data] := by
  constructor
  · rfl
  · rfl

/-- C8 amended: the `references` entry is never scanned (it is carried
through unchanged and no figure record is attributed to it), and for every
section content the extraction pipeline is the caption pass followed by one
left-to-right stray-base64 pass whose matched blocks are removed wholesale
with their data discarded (never persisted in the figure records).  Because
the removal is a single pass, text spliced together at a removal seam can
itself still form a base64 block. -/
theorem stray_blocks_stripped (pid : String)
    (outline : List (List Char × OutVal)) :
    (∀ v, dictLookup (("references").data) outline = some v →
      dictLookup (("references").data) (extractFigures outline pid).2 =
        some (.raw v)) ∧
    (∀ f ∈ (extractFigures outline pid).1,
      f.sectionKey ≠ ("references").data) ∧
    (∀ key content,
      processSection pid key content =
        ((scanFig content).1.map (toFigRec pid key),
         .sec ((scanFig content).1.map (toFigRec pid key))
           (scanB64 (scanFig content).2).2) ∧
      (scanB64 (scanFig content).2).2.length +
          b64BlocksLen (scanB64 (scanFig content).2).1 =
        (scanFig content).2.length ∧
      (∀ d ∈ (scanB64 (scanFig content).2).1, d ≠ [] ∧ ∀ ch ∈ d, ch ≠ ')')) := by
  refine ⟨?_, ?_, ?_⟩
  · intro v hv
    induction outline with
    | nil => cases hv
    | cons e rest ih =>
      rcases e with ⟨k, v'⟩
      simp only [extractFigures]
      by_cases hk : k = ("references").data
      · simp only [hk, if_true]
        simp only [dictLookup, hk, if_true] at hv ⊢
        injection hv with hv'
        rw [hv']
      · simp only [hk, if_false]
        simp only [dictLookup, hk, if_false] at hv
        cases v' with
        | prose c =>
          simp only [dictLookup, hk, if_false]
          exact ih hv
        | refs ls =>
          simp only [dictLookup, hk, if_false]
          exact ih hv
  · intro f hf
    induction outline with
    | nil => cases hf
    | cons e rest ih =>
      rcases e with ⟨k, v'⟩
      simp only [extractFigures] at hf
      by_cases hk : k = ("references").data
      · simp only [hk, if_true] at hf
        exact ih hf
      · simp only [hk, if_false] at hf
        cases v' with
        | prose c =>
          simp only [List.mem_append] at hf
          rcases hf with hf | hf
          · rcases List.mem_map.mp hf with ⟨g, _, hg⟩
            rw [← hg]
            simpa [toFigRec] using hk
          · exact ih hf
        | refs ls => exact ih hf
  · intro key content
    refine ⟨rfl, ?_, ?_⟩
    · exact (scanB64_strips_blocks (scanFig content).2.length _ (le_refl _)).1
    · exact (scanB64_strips_blocks (scanFig content).2.length _ (le_refl _)).2

/-! ## C9 and C10: parse-level properties -/

theorem extractFigures_keys (outline : List (List Char × OutVal)) (pid : String) :
    ((extractFigures outline pid).2).map Prod.fst = outline.map Prod.fst := by
  induction outline with
  | nil => rfl
  | cons e rest ih =>
    rcases e with ⟨k, v⟩
    simp only [extractFigures]
    by_cases hk : k = ("references").data
    · simp only [hk, if_true, List.map_cons]
      rw [ih]
    · simp only [hk, if_false]
      cases v with
      | prose c => simp only [List.map_cons]; rw [ih]
      | refs ls => simp only [List.map_cons]; rw [ih]

theorem dictLookup_eq_none_of_not_mem {α : Type} {k : List Char}
    {l : List (List Char × α)} (h : k ∉ l.map Prod.fst) :
    dictLookup k l = none := by
  induction l with
  | nil => rfl
  | cons e rest ih =>
    rcases e with ⟨k', v⟩
    simp only [List.map_cons, List.mem_cons] at h
    push_neg at h
    simp only [dictLookup]
    rw [if_neg (fun he => h.1 he.symm)]
    exact ih h.2

theorem dictRemove_keys_subset {α : Type} {k k' : List Char}
    {l : List (List Char × α)} (h : k' ∈ (dictRemove k l).map Prod.fst) :
    k' ∈ l.map Prod.fst := by
  induction l with
  | nil => cases h
  | cons e rest ih =>
    rcases e with ⟨k0, v⟩
    simp only [dictRemove] at h
    by_cases hk : k0 = k
    · simp only [hk, if_true] at h
      simp only [List.map_cons, List.mem_cons]
      exact Or.inr h
    · simp only [hk, if_false, List.map_cons, List.mem_cons] at h ⊢
      rcases h with h | h
      · exact Or.inl h
      · exact Or.inr (ih h)

/-- Whether a `parse` run returned a document (rather than raising). -/
def exceptIsOk {α : Type} (e : Except String α) : Bool :=
  match e with
  | .ok _ => true
  | .error _ => false

theorem exceptIsOk_exists {α : Type} {e : Except String α}
    (h : exceptIsOk e = true) : ∃ a, e = .ok a := by
  cases e with
  | ok a => exact ⟨a, rfl⟩
  | error msg => simp [exceptIsOk] at h

/-- C9: for every document whose converted markdown has at least one heading
but none titled `"references"`, `parse` raises (surfaced as a `RuntimeError`)
instead of returning a `PaperDocument` with an empty reference list:
`references` is read with a guarded default but then deleted unconditionally,
raising `KeyError`. -/
theorem parse_errors_without_references (stem pid : String) (md : List Char)
    (h1 : scanMarkdownStructure md ≠ [])
    (h2 : ("references").data ∉ (scanMarkdownStructure md).map Prod.fst) :
    exceptIsOk (parseCore stem pid md) = false := by
  unfold parseCore
  split
  · rfl
  case _ title v restIr heq =>
    have hkeys := extractFigures_keys (scanMarkdownStructure md) pid
    have h2' : ("references").data ∉
        (((title, v) :: restIr).map Prod.fst) := by
      rw [← heq, hkeys]; exact h2
    have h2'' : ("references").data ∉
        ((dictRemove title ((title, v) :: restIr)).map Prod.fst) :=
      fun hmem => h2' (dictRemove_keys_subset hmem)
    have hcond : dictContains (("references").data)
        (dictRemove title ((title, v) :: restIr)) = false := by
      unfold dictContains
      rw [dictLookup_eq_none_of_not_mem h2'']
      rfl
    unfold parseAfterTitle
    rw [hcond]
    rfl

/-- A markdown document with headings but no references heading. -/
def mdNoRefs : List Char :=
  ("# Title One\nsome text\n# Abstract\nhello world").data

theorem parse_errors_without_references_witness :
    exceptIsOk (parseCore "stem" "pid" mdNoRefs) = false :=
  parse_errors_without_references "stem" "pid" mdNoRefs (by decide) (by decide)

/-- The `paper_id` field of a successful parse. -/
def okPaperId (e : Except String PaperDocument) : Option String :=
  match e with
  | .ok d => some d.paper_id
  | .error _ => none

/-- C10: a successful `DoclingParser.parse(pdf_path, paper_id)` returns a
document whose `paper_id` field is `pdf_path.stem`, not the `paper_id`
argument; the two coincide exactly when the PDF file is named after the
paper id. -/
theorem parse_paper_id_is_stem (stem pid : String) (md : List Char)
    (doc : PaperDocument) (h : parseCore stem pid md = .ok doc) :
    doc.paper_id = stem ∧ (doc.paper_id = pid ↔ stem = pid) := by
  have hps : doc.paper_id = stem := by
    unfold parseCore at h
    split at h
    · cases h
    · unfold parseAfterTitle at h
      split at h
      · split at h
        · cases h
        · rw [Except.ok.injEq] at h
          rw [← h]
      · cases h
  exact ⟨hps, by rw [hps]⟩

/-- A markdown document that parses successfully. -/
def mdWithRefs : List Char :=
  ("# My Paper\nIntro.\n# Abstract\nWe study things.\n# 1 Introduction\nBody text.\n# References\nOne\nTwo").data

theorem parse_paper_id_is_stem_witness :
    okPaperId (parseCore "file1" "paper-9" mdWithRefs) = some "file1" ∧
    "file1" ≠ "paper-9" := by
  constructor
  · obtain ⟨d, hd⟩ :=
      exceptIsOk_exists (e := parseCore "file1" "paper-9" mdWithRefs) (by decide)
    rw [hd]
    simp only [okPaperId]
    rw [(parse_paper_id_is_stem "file1" "paper-9" mdWithRefs d hd).1]
  · decide

/-! ## text_to_sparse_vector (src/db/qdrant_store.py lines 71-95) -/

/-- Regex `\w` (ASCII): alphanumeric or underscore. -/
def isWordChar (c : Char) : Bool := c.isAlphanum || c == '_'

/-- `re.sub(r'[^\w\s]', ' ', text)`: replace every character that is neither
a word character nor whitespace with a space. -/
def pySubNonWord (s : List Char) : List Char :=
  s.map (fun c => if isWordChar c || isPyWs c then c else ' ')

/-- Python `str.split()` with no separator: split on whitespace runs,
dropping empty pieces. -/
def splitWsAux : List Char → List Char → List (List Char)
  | [], acc => if acc.isEmpty then [] else [acc.reverse]
  | c :: rest, acc =>
    if isPyWs c then
      if acc.isEmpty then splitWsAux rest [] else acc.reverse :: splitWsAux rest []
    else splitWsAux rest (c :: acc)

def pySplitWs (s : List Char) : List (List Char) := splitWsAux s []

/-- `text = re.sub(r'[^\w\s]', ' ', text.lower()); tokens = text.split()`. -/
def tokenize (text : List Char) : List (List Char) :=
  pySplitWs (pySubNonWord (pyLower text))

/-- One `Counter` increment: bump the existing entry (keeping its position)
or append a fresh entry with count 1. -/
def incrKey : List (List Char × Nat) → List Char → List (List Char × Nat)
  | [], t => [(t, 1)]
  | (k, n) :: rest, t =>
    if k = t then (k, n + 1) :: rest else (k, n) :: incrKey rest t

/-- `tf = Counter(tokens)`: counts keyed by token, keys in first-occurrence
order. -/
def counterFold (ts : List (List Char)) : List (List Char × Nat) :=
  ts.foldl incrKey []

/-- `text_to_sparse_vector`: one `(index, value)` pair per `tf` item, with
`idx = abs(hash(token)) % (2**31)` and the term frequency as the value
(`float(count)`, modelled as `Nat`). -/
def textToSparseVector (hash : List Char → Int) (text : List Char) :
    List Nat × List Nat :=
  let tf := counterFold (tokenize text)
  (tf.map (fun p => (hash p.1).natAbs % 2 ^ 31), tf.map (fun p => p.2))

/-- Claim-side description of `Counter`'s key order: tokens in order of first
occurrence. -/
def firstOccsAux (acc : List (List Char)) : List (List Char) → List (List Char)
  | [] => acc
  | t :: ts => firstOccsAux (if t ∈ acc then acc else acc ++ [t]) ts

def firstOccs (ts : List (List Char)) : List (List Char) := firstOccsAux [] ts

theorem counterFold_append (ts : List (List Char)) (t : List Char) :
    counterFold (ts ++ [t]) = incrKey (counterFold ts) t := by
  unfold counterFold
  rw [List.foldl_append]
  rfl

theorem firstOccsAux_append (ts : List (List Char)) (t : List Char) :
    ∀ acc, firstOccsAux acc (ts ++ [t]) =
      (if t ∈ firstOccsAux acc ts then firstOccsAux acc ts
       else firstOccsAux acc ts ++ [t]) := by
  induction ts with
  | nil => intro acc; rfl
  | cons t' ts ih =>
    intro acc
    simp only [List.cons_append, firstOccsAux]
    exact ih _

theorem mem_firstOccsAux {u : List Char} :
    ∀ {acc : List (List Char)} {ts : List (List Char)},
    u ∈ firstOccsAux acc ts ↔ u ∈ acc ∨ u ∈ ts := by
  intro acc ts
  induction ts generalizing acc with
  | nil => simp [firstOccsAux]
  | cons t ts ih =>
    simp only [firstOccsAux]
    rw [ih]
    by_cases ht : t ∈ acc
    · simp only [ht, if_true, List.mem_cons]
      constructor
      · rintro (h | h)
        · exact Or.inl h
        · exact Or.inr (Or.inr h)
      · rintro (h | h | h)
        · exact Or.inl h
        · exact Or.inl (h ▸ ht)
        · exact Or.inr h
    · simp only [ht, if_false, List.mem_append, List.mem_singleton,
        List.mem_cons]
      tauto

theorem nodup_firstOccsAux :
    ∀ {acc : List (List Char)} {ts : List (List Char)}, acc.Nodup →
    (firstOccsAux acc ts).Nodup := by
  intro acc ts
  induction ts generalizing acc with
  | nil => intro h; exact h
  | cons t ts ih =>
    intro h
    simp only [firstOccsAux]
    by_cases ht : t ∈ acc
    · simp only [ht, if_true]
      exact ih h
    · simp only [ht, if_false]
      refine ih ?_
      rw [← List.concat_eq_append]
      exact List.Nodup.concat ht h

theorem incrKey_map_mem (keys : List (List Char)) (cnt : List Char → Nat)
    (t : List Char) (hnd : keys.Nodup) (hmem : t ∈ keys) :
    incrKey (keys.map (fun u => (u, cnt u))) t =
      keys.map (fun u => (u, if u = t then cnt u + 1 else cnt u)) := by
  induction keys with
  | nil => cases hmem
  | cons k ks ih =>
    simp only [List.map_cons, incrKey]
    by_cases hk : k = t
    · subst hk
      rw [if_pos rfl, if_pos rfl]
      have hnot : k ∉ ks := (List.nodup_cons.mp hnd).1
      congr 1
      apply List.map_congr_left
      intro u hu
      have hne : ¬ (u = k) := fun he => hnot (he ▸ hu)
      rw [if_neg hne]
    · rw [if_neg hk, if_neg hk]
      have hmem' : t ∈ ks := by
        rcases List.mem_cons.mp hmem with h | h
        · exact absurd h.symm hk
        · exact h
      rw [ih (List.nodup_cons.mp hnd).2 hmem']

theorem incrKey_map_not_mem (keys : List (List Char)) (cnt : List Char → Nat)
    (t : List Char) (hmem : t ∉ keys) :
    incrKey (keys.map (fun u => (u, cnt u))) t =
      keys.map (fun u => (u, cnt u)) ++ [(t, 1)] := by
  induction keys with
  | nil => rfl
  | cons k ks ih =>
    simp only [List.map_cons, incrKey]
    have hk : k ≠ t := fun he => hmem (he ▸ List.mem_cons_self _ _)
    rw [if_neg hk]
    rw [ih (fun h => hmem (List.mem_cons_of_mem _ h))]
    rfl

/-- `Counter(tokens).items()` is exactly the distinct tokens in
first-occurrence order, each paired with its number of occurrences. -/
theorem counterFold_eq (ts : List (List Char)) :
    counterFold ts = (firstOccs ts).map (fun t => (t, ts.count t)) := by
  induction ts using List.reverseRecOn with
  | nil => rfl
  | append_singleton ts t ih =>
    rw [counterFold_append, ih]
    have hfo : firstOccs (ts ++ [t]) =
        (if t ∈ firstOccs ts then firstOccs ts else firstOccs ts ++ [t]) :=
      firstOccsAux_append ts t []
    have hnd : (firstOccs ts).Nodup := nodup_firstOccsAux List.nodup_nil
    by_cases hmem : t ∈ firstOccs ts
    · rw [incrKey_map_mem _ _ _ hnd hmem, hfo, if_pos hmem]
      apply List.map_congr_left
      intro u hu
      rw [List.count_append]
      by_cases hut : u = t
      · subst hut
        simp
      · simp [List.count_singleton', hut]
    · rw [incrKey_map_not_mem _ _ _ hmem, hfo, if_neg hmem, List.map_append]
      have htts : t ∉ ts := fun h => hmem (mem_firstOccsAux.mpr (Or.inr h))
      congr 1
      · apply List.map_congr_left
        intro u hu
        have hut : u ≠ t := by
          intro he
          exact htts (he ▸ mem_firstOccsAux.mp hu |>.resolve_left (by simp))
        rw [List.count_append]
        simp [List.count_singleton', hut]
      · simp only [List.map_cons, List.map_nil, List.count_append]
        rw [List.count_eq_zero.mpr (by simpa using htts)]
        simp

/-- C7: `text_to_sparse_vector` lower-cases, tokenizes on non-word
boundaries, and emits exactly one `(index, value)` pair per distinct token —
indices and values run over the distinct tokens (first-occurrence order,
duplicate-free, covering exactly the tokens of the text), the value is the
token's term frequency, and the index is `abs(hash(token)) % 2**31`, a
non-negative integer below `2^31` depending only on the token. -/
theorem sparse_vector_spec (hash : List Char → Int) (text : List Char) :
    (textToSparseVector hash text).1 =
      (firstOccs (tokenize text)).map (fun t => (hash t).natAbs % 2 ^ 31) ∧
    (textToSparseVector hash text).2 =
      (firstOccs (tokenize text)).map (fun t => (tokenize text).count t) ∧
    (firstOccs (tokenize text)).Nodup ∧
    (∀ t, t ∈ firstOccs (tokenize text) ↔ t ∈ tokenize text) ∧
    (∀ i ∈ (textToSparseVector hash text).1, i < 2 ^ 31) := by
  have hcf := counterFold_eq (tokenize text)
  refine ⟨?_, ?_, nodup_firstOccsAux List.nodup_nil, ?_, ?_⟩
  · show (counterFold (tokenize text)).map (fun p => (hash p.1).natAbs % 2 ^ 31) = _
    rw [hcf, List.map_map]
    rfl
  · show (counterFold (tokenize text)).map (fun p => p.2) = _
    rw [hcf, List.map_map]
    rfl
  · intro t
    constructor
    · intro h
      exact (mem_firstOccsAux.mp h).resolve_left (by simp)
    · intro h
      exact mem_firstOccsAux.mpr (Or.inr h)
  · intro i hi
    have : i ∈ (counterFold (tokenize text)).map
        (fun p => (hash p.1).natAbs % 2 ^ 31) := hi
    rcases List.mem_map.mp this with ⟨p, _, hp⟩
    rw [← hp]
    exact Nat.mod_lt _ (by norm_num)

/-! ## QdrantVectorStore.add_documents (qdrant_store.py lines 134-191) -/

/-- Python `dict` insertion for string-keyed payload dicts. -/
def kvUpsert (k v : String) : List (String × String) → List (String × String)
  | [] => [(k, v)]
  | (k', v') :: rest =>
    if k' = k then (k, v) :: rest else (k', v') :: kvUpsert k v rest

/-- Key lookup in a string-keyed dict. -/
def kvLookup (k : String) : List (String × String) → Option String
  | [] => none
  | (k', v) :: rest => if k' = k then some v else kvLookup k rest

/-- One input document: `doc.get('text', doc.get('content', ''))` plus its
metadata dict. -/
structure DocIn where
  textVal : Option String
  contentVal : Option String
  metadata : List (String × String)
deriving DecidableEq

def docText (d : DocIn) : String :=
  match d.textVal with
  | some t => t
  | none =>
    match d.contentVal with
    | some c => c
    | none => ""

/-- `f"{paper_id}_{i}_{text[:100]}"`. -/
def hashKeyString (pid : String) (i : Nat) (text : String) : String :=
  pid ++ "_" ++ toString i ++ "_" ++ String.mk (text.data.take 100)

/-- `doc_id = abs(hash(f"{paper_id}_{i}_{text[:100]}")) % (2**63)`. -/
def docPointId (hash : List Char → Int) (pid : String) (i : Nat)
    (text : String) : Nat :=
  (hash (hashKeyString pid i text).data).natAbs % 2 ^ 63

/-- A `PointStruct`: deterministic id, named dense and sparse vectors, and
the payload `{"content": text, **metadata}` (metadata entries override). -/
structure QdrantPoint where
  id : Nat
  dense : List Int
  sparseIndices : List Nat
  sparseValues : List Nat
  payload : List (String × String)
deriving DecidableEq

/-- The loop body of `add_documents` for `(i, doc)`: the dense embedding
comes from the pluggable embedding model (`embed`), the sparse vector from
`text_to_sparse_vector`, and `metadata['paper_id'] = paper_id` is set
first. -/
def mkPoint (embed : String → List Int) (hash : List Char → Int)
    (pid : String) (i : Nat) (d : DocIn) : QdrantPoint :=
  let text := docText d
  let md := kvUpsert ("paper_id") pid d.metadata
  let sparse := textToSparseVector hash text.data
  { id := docPointId hash pid i text
    dense := embed text
    sparseIndices := sparse.1
    sparseValues := sparse.2
    payload := md.foldl (fun acc kv => kvUpsert kv.1 kv.2 acc) [("content", text)] }

/-- The point batch built by `add_documents` (enumerate from 0). -/
def addDocumentsPoints (embed : String → List Int) (hash : List Char → Int)
    (pid : String) (docs : List DocIn) : List QdrantPoint :=
  docs.enum.map (fun p => mkPoint embed hash pid p.1 p.2)

/-- Qdrant upsert of a single point: replace the point with the same id in
place, or append. -/
def upsertPoint : List QdrantPoint → QdrantPoint → List QdrantPoint
  | [], p => [p]
  | q :: rest, p =>
    if q.id = p.id then p :: rest else q :: upsertPoint rest p

/-- `client.upsert(points=...)`: one batch upsert. -/
def upsertBatch (store : List QdrantPoint) (pts : List QdrantPoint) :
    List QdrantPoint :=
  pts.foldl upsertPoint store

theorem mem_ids_upsertPoint {store : List QdrantPoint} {p : QdrantPoint}
    {i : Nat} (h : i ∈ store.map QdrantPoint.id) :
    i ∈ (upsertPoint store p).map QdrantPoint.id := by
  induction store with
  | nil => cases h
  | cons q rest ih =>
    simp only [upsertPoint]
    by_cases hq : q.id = p.id
    · simp only [hq, if_true, List.map_cons, List.mem_cons]
      simp only [List.map_cons, List.mem_cons] at h
      rcases h with h | h
      · exact Or.inl (hq ▸ h)
      · exact Or.inr h
    · simp only [hq, if_false, List.map_cons, List.mem_cons]
      simp only [List.map_cons, List.mem_cons] at h
      rcases h with h | h
      · exact Or.inl h
      · exact Or.inr (ih h)

theorem self_mem_ids_upsertPoint (store : List QdrantPoint) (p : QdrantPoint) :
    p.id ∈ (upsertPoint store p).map QdrantPoint.id := by
  induction store with
  | nil => simp [upsertPoint]
  | cons q rest ih =>
    simp only [upsertPoint]
    by_cases hq : q.id = p.id
    · simp [hq]
    · simp only [hq, if_false, List.map_cons, List.mem_cons]
      exact Or.inr ih

theorem length_upsertPoint_of_mem {store : List QdrantPoint} {p : QdrantPoint}
    (h : p.id ∈ store.map QdrantPoint.id) :
    (upsertPoint store p).length = store.length := by
  induction store with
  | nil => cases h
  | cons q rest ih =>
    simp only [upsertPoint]
    by_cases hq : q.id = p.id
    · simp [hq]
    · simp only [List.map_cons, List.mem_cons] at h
      rcases h with h | h
      · exact absurd h.symm hq
      · simp only [hq, if_false, List.length_cons]
        rw [ih h]

theorem mem_ids_upsertBatch {i : Nat} :
    ∀ {store pts : List QdrantPoint}, i ∈ store.map QdrantPoint.id →
    i ∈ (upsertBatch store pts).map QdrantPoint.id := by
  intro store pts
  induction pts generalizing store with
  | nil => intro h; exact h
  | cons p rest ih =>
    intro h
    exact ih (mem_ids_upsertPoint h)

theorem batch_mem_ids_upsertBatch :
    ∀ {store pts : List QdrantPoint} {p : QdrantPoint}, p ∈ pts →
    p.id ∈ (upsertBatch store pts).map QdrantPoint.id := by
  intro store pts
  induction pts generalizing store with
  | nil => intro p h; cases h
  | cons q rest ih =>
    intro p h
    rcases List.mem_cons.mp h with h | h
    · subst h
      show p.id ∈ (upsertBatch (upsertPoint store p) rest).map QdrantPoint.id
      exact mem_ids_upsertBatch (self_mem_ids_upsertPoint store p)
    · exact ih h

theorem length_upsertBatch_of_all_mem :
    ∀ {store pts : List QdrantPoint},
    (∀ p ∈ pts, p.id ∈ store.map QdrantPoint.id) →
    (upsertBatch store pts).length = store.length := by
  intro store pts
  induction pts generalizing store with
  | nil => intro _; rfl
  | cons p rest ih =>
    intro h
    have h1 : (upsertBatch (upsertPoint store p) rest).length =
        (upsertPoint store p).length :=
      ih (fun q hq => mem_ids_upsertPoint (h q (List.mem_cons_of_mem _ hq)))
    calc (upsertBatch store (p :: rest)).length
        = (upsertBatch (upsertPoint store p) rest).length := rfl
      _ = (upsertPoint store p).length := h1
      _ = store.length := length_upsertPoint_of_mem (h p (List.mem_cons_self _ _))

/-- C3: the point id is a deterministic function of `paper_id`, the chunk's
ordinal, and the first 100 characters of its text — two chunks at the same
position agreeing on those 100 characters receive the same id — and
re-upserting the same point batch leaves the number of stored points
unchanged (the second ingestion overwrites the first). -/
theorem deterministic_point_ids (embed : String → List Int)
    (hash : List Char → Int) (pid : String) (docs : List DocIn)
    (store : List QdrantPoint) (i : Nat) (t1 t2 : String)
    (h100 : t1.data.take 100 = t2.data.take 100) :
    docPointId hash pid i t1 = docPointId hash pid i t2 ∧
    (upsertBatch (upsertBatch store (addDocumentsPoints embed hash pid docs))
        (addDocumentsPoints embed hash pid docs)).length =
      (upsertBatch store (addDocumentsPoints embed hash pid docs)).length := by
  constructor
  · unfold docPointId hashKeyString
    rw [h100]
  · exact length_upsertBatch_of_all_mem
      (fun p hp => batch_mem_ids_upsertBatch hp)

def embedLen : String → List Int := fun s => [Int.ofNat s.length]

def hashLen : List Char → Int := fun l => Int.ofNat (l.length * 7) - 3

def docsC3 : List DocIn :=
  [{ textVal := some "hello world", contentVal := none, metadata := [] },
   { textVal := none, contentVal := some "second chunk",
     metadata := [("section", "intro")] }]

def longTextA : String := String.mk (List.replicate 100 'a' ++ ['x'])

def longTextB : String := String.mk (List.replicate 100 'a' ++ ['y'])

theorem deterministic_point_ids_witness :
    docPointId hashLen "p" 0 longTextA = docPointId hashLen "p" 0 longTextB ∧
    (upsertBatch (upsertBatch [] (addDocumentsPoints embedLen hashLen "p" docsC3))
        (addDocumentsPoints embedLen hashLen "p" docsC3)).length =
      (upsertBatch [] (addDocumentsPoints embedLen hashLen "p" docsC3)).length :=
  deterministic_point_ids embedLen hashLen "p" docsC3 [] 0 longTextA longTextB
    (by decide)

/-! ## QdrantVectorStore.hybrid_search (qdrant_store.py lines 193-277)

Relevance scores are modelled as exact fractions (numerator, positive
denominator) compared by cross-multiplication; the filtering claims proved
below do not depend on score values. -/

structure Score where
  num : Int
  den : Nat
deriving DecidableEq

def scoreLt (x y : Score) : Bool :=
  x.num * Int.ofNat y.den < y.num * Int.ofNat x.den

def scoreAdd (x y : Score) : Score :=
  ⟨x.num * Int.ofNat y.den + y.num * Int.ofNat x.den, x.den * y.den⟩

/-- The `paper_id` argument: `None`, a single string, or a list. -/
inductive PaperIdArg where
  | noneArg : PaperIdArg
  | strArg : String → PaperIdArg
  | listArg : List String → PaperIdArg

/-- Python truthiness of `if paper_id:`. -/
def paperIdTruthy : PaperIdArg → Bool
  | .noneArg => false
  | .strArg s => !(s == "")
  | .listArg l => !(l.isEmpty)

/-- A `FieldCondition` of the built filter: `MatchAny` / `MatchValue` on
`paper_id`, or `MatchValue` on `section`. -/
inductive FieldCond where
  | paperAny : List String → FieldCond
  | paperVal : String → FieldCond
  | sectionVal : String → FieldCond
deriving DecidableEq

/-- The `filter_conditions` list built by `hybrid_search`. -/
def buildFilterConds (paperId : PaperIdArg) (sct : Option String) :
    List FieldCond :=
  (if paperIdTruthy paperId then
    match paperId with
    | .listArg l => [FieldCond.paperAny l]
    | .strArg s => [FieldCond.paperVal s]
    | .noneArg => []
  else []) ++
  (match sct with
   | some s => if s = "" then [] else [FieldCond.sectionVal s]
   | none => [])

/-- Whether a stored payload satisfies one `FieldCondition` (a missing key
matches nothing). -/
def condHolds (pl : List (String × String)) : FieldCond → Bool
  | .paperAny l =>
    match kvLookup ("paper_id") pl with
    | some v => decide (v ∈ l)
    | none => false
  | .paperVal s => kvLookup ("paper_id") pl == some s
  | .sectionVal s => kvLookup ("section") pl == some s

/-- A `Filter(must=conds)`: all conditions hold. -/
def filterHolds (conds : List FieldCond) (pl : List (String × String)) : Bool :=
  conds.all (condHolds pl)

/-- Insertion sort, descending by score (the order among equal scores is an
internal detail of the index). -/
def insertDesc {α : Type} (f : α → Score) (x : α) : List α → List α
  | [] => [x]
  | y :: rest =>
    if scoreLt (f y) (f x) then x :: y :: rest else y :: insertDesc f x rest

def sortDesc {α : Type} (f : α → Score) (l : List α) : List α :=
  l.foldr (insertDesc f) []

/-- A capped retrieval: best `n` elements by score. -/
def topKBy {α : Type} (f : α → Score) (n : Nat) (l : List α) : List α :=
  (sortDesc f l).take n

/-- Candidate union keyed by point id (first occurrence wins). -/
def dedupByIdAux (seen : List Nat) : List QdrantPoint → List QdrantPoint
  | [] => []
  | p :: rest =>
    if p.id ∈ seen then dedupByIdAux seen rest
    else p :: dedupByIdAux (p.id :: seen) rest

def dedupById (l : List QdrantPoint) : List QdrantPoint := dedupByIdAux [] l

/-- 0-based rank of a point in a candidate list. -/
def rankOf (p : QdrantPoint) (l : List QdrantPoint) : Option Nat :=
  l.findIdx? (fun q => q.id == p.id)

/-- Modelled from the spec: the small constant `k` of Reciprocal Rank Fusion
inside Qdrant's `FusionQuery(fusion=Fusion.RRF)`; the claims do not depend on
its value. -/
def rrfK : Nat := 2

/-- One RRF summand: `1 / (rank + k)` with 1-based ranks, `0` for a point
absent from the list. -/
def rrfTerm (lst : List QdrantPoint) (p : QdrantPoint) : Score :=
  match rankOf p lst with
  | some r => ⟨1, r + rrfK + 1⟩
  | none => ⟨0, 1⟩

/-- Modelled from the spec: Qdrant `client.query_points` with two prefetches
(dense and sparse, each capped at its limit) fused by RRF.  The root-level
`query_filter` is applied as a pre-filter to the candidate scans, not after
retrieval, so both prefetch lists draw only from filtered points. -/
def queryPointsRRF (index : List QdrantPoint) (conds : List FieldCond)
    (denseScore sparseScore : QdrantPoint → Score) (prefetchLim lim : Nat) :
    List (QdrantPoint × Score) :=
  let filtered := index.filter (fun p => filterHolds conds p.payload)
  let dlist := topKBy denseScore prefetchLim filtered
  let slist := topKBy sparseScore prefetchLim filtered
  let cands := dedupById (dlist ++ slist)
  topKBy (fun pr => pr.2) lim
    (cands.map (fun p => (p, scoreAdd (rrfTerm dlist p) (rrfTerm slist p))))

/-- One `{content, score, metadata}` result dict. -/
structure SearchResult where
  content : String
  score : Score
  metadata : List (String × String)
deriving DecidableEq

/-- `QdrantVectorStore.hybrid_search`: embed the query (same pluggable
provider as at indexing time), build the sparse query via
`text_to_sparse_vector`, build the filter, run the fused query with prefetch
limits `top_k * 2` and final limit `top_k`, and convert each point to
`{content, score, metadata}` with `content` removed from the metadata. -/
def hybridSearch (embed : String → List Int)
    (denseSim : List Int → List Int → Score)
    (sparseSim : List Nat × List Nat → List Nat × List Nat → Score)
    (hash : List Char → Int) (index : List QdrantPoint) (query : String)
    (paperId : PaperIdArg) (sct : Option String) (topK : Nat) :
    List SearchResult :=
  let denseQuery := embed query
  let sparseQuery := textToSparseVector hash query.data
  let conds := buildFilterConds paperId sct
  (queryPointsRRF index conds
      (fun p => denseSim denseQuery p.dense)
      (fun p => sparseSim sparseQuery (p.sparseIndices, p.sparseValues))
      (topK * 2) topK).map
    (fun pr =>
      { content := (kvLookup ("content") pr.1.payload).getD ""
        score := pr.2
        metadata := pr.1.payload.filter (fun kv => !(kv.1 == "content")) })

theorem mem_insertDesc {α : Type} {f : α → Score} {x a : α} {l : List α}
    (h : x ∈ insertDesc f a l) : x = a ∨ x ∈ l := by
  induction l with
  | nil => simpa [insertDesc] using h
  | cons y rest ih =>
    simp only [insertDesc] at h
    by_cases hc : scoreLt (f y) (f a) = true
    · rw [if_pos hc] at h
      simp only [List.mem_cons] at h
      rcases h with h | h | h
      · exact Or.inl h
      · exact Or.inr (by simp [h])
      · exact Or.inr (List.mem_cons_of_mem _ h)
    · rw [if_neg hc] at h
      simp only [List.mem_cons] at h
      rcases h with h | h
      · exact Or.inr (by simp [h])
      · rcases ih h with h' | h'
        · exact Or.inl h'
        · exact Or.inr (List.mem_cons_of_mem _ h')

theorem mem_sortDesc {α : Type} {f : α → Score} {x : α} :
    ∀ {l : List α}, x ∈ sortDesc f l → x ∈ l := by
  intro l
  induction l with
  | nil => intro h; cases h
  | cons y rest ih =>
    intro h
    rcases mem_insertDesc h with h' | h'
    · simp [h']
    · exact List.mem_cons_of_mem _ (ih h')

theorem mem_topKBy {α : Type} {f : α → Score} {n : Nat} {x : α} {l : List α}
    (h : x ∈ topKBy f n l) : x ∈ l :=
  mem_sortDesc (List.take_subset _ _ h)

theorem mem_dedupByIdAux {x : QdrantPoint} :
    ∀ {seen : List Nat} {l : List QdrantPoint},
    x ∈ dedupByIdAux seen l → x ∈ l := by
  intro seen l
  induction l generalizing seen with
  | nil => intro h; cases h
  | cons p rest ih =>
    intro h
    simp only [dedupByIdAux] at h
    by_cases hp : p.id ∈ seen
    · rw [if_pos hp] at h
      exact List.mem_cons_of_mem _ (ih h)
    · rw [if_neg hp] at h
      simp only [List.mem_cons] at h
      rcases h with h | h
      · simp [h]
      · exact List.mem_cons_of_mem _ (ih h)

theorem kvLookup_cons (k k' v : String) (rest : List (String × String)) :
    kvLookup k ((k', v) :: rest) =
      if k' = k then some v else kvLookup k rest := rfl

theorem kvLookup_filter_content {k : String} (hk : k ≠ "content") :
    ∀ (pl : List (String × String)),
    kvLookup k (pl.filter (fun kv => !(kv.1 == "content"))) = kvLookup k pl := by
  intro pl
  induction pl with
  | nil => rfl
  | cons e rest ih =>
    rcases e with ⟨k', v⟩
    rw [List.filter_cons]
    by_cases hc : k' = "content"
    · subst hc
      rw [if_neg (by simp)]
      have h2 : ¬ (("content" : String) = k) := fun he => hk he.symm
      rw [kvLookup_cons, if_neg h2]
      exact ih
    · rw [if_pos (by simp [hc])]
      rw [kvLookup_cons, kvLookup_cons]
      by_cases he : k' = k
      · rw [if_pos he, if_pos he]
      · rw [if_neg he, if_neg he]
        exact ih

/-- C4: every result of `hybrid_search` called with `paper_id=[a]` carries
metadata `paper_id = a` — a chunk stored under any other paper id is never
returned, whatever its similarity scores, because the paper-id constraint is
applied as a pre-filter on both candidate scans. -/
theorem filtered_query_scoping (embed : String → List Int)
    (denseSim : List Int → List Int → Score)
    (sparseSim : List Nat × List Nat → List Nat × List Nat → Score)
    (hash : List Char → Int) (index : List QdrantPoint) (query : String)
    (sct : Option String) (topK : Nat) (a : String) (r : SearchResult)
    (hr : r ∈ hybridSearch embed denseSim sparseSim hash index query
      (.listArg [a]) sct topK) :
    kvLookup ("paper_id") r.metadata = some a := by
  unfold hybridSearch at hr
  rcases List.mem_map.mp hr with ⟨pr, hpr, hre⟩
  unfold queryPointsRRF at hpr
  have hcand := mem_topKBy hpr
  rcases List.mem_map.mp hcand with ⟨p, hpc, hpe⟩
  have hpl := mem_dedupByIdAux hpc
  have hpf : p ∈ index.filter (fun q =>
      filterHolds (buildFilterConds (.listArg [a]) sct) q.payload) := by
    rcases List.mem_append.mp hpl with h | h
    · exact mem_topKBy h
    · exact mem_topKBy h
  have hholds : filterHolds (buildFilterConds (.listArg [a]) sct) p.payload :=
    (List.mem_filter.mp hpf).2
  have hcond : condHolds p.payload (FieldCond.paperAny [a]) = true := by
    have hmemc : FieldCond.paperAny [a] ∈
        buildFilterConds (.listArg [a]) sct := by
      unfold buildFilterConds paperIdTruthy
      simp
    exact List.all_eq_true.mp hholds _ hmemc
  have hlook : kvLookup ("paper_id") p.payload = some a := by
    unfold condHolds at hcond
    cases hkl : kvLookup ("paper_id") p.payload with
    | none => rw [hkl] at hcond; cases hcond
    | some v =>
      rw [hkl] at hcond
      have hv : v ∈ [a] := of_decide_eq_true hcond
      simp only [List.mem_singleton] at hv
      rw [hv]
  have hmeta : r.metadata =
      p.payload.filter (fun kv => !(kv.1 == "content")) := by
    rw [← hre, ← hpe]
  rw [hmeta, kvLookup_filter_content (by decide) p.payload, hlook]

def idxPointA : QdrantPoint :=
  { id := 1, dense := [1], sparseIndices := [], sparseValues := [],
    payload := [("content", "alpha text"), ("paper_id", "A"), ("section", "intro")] }

def idxPointB : QdrantPoint :=
  { id := 2, dense := [2], sparseIndices := [], sparseValues := [],
    payload := [("content", "beta text"), ("paper_id", "B"), ("section", "intro")] }

def denseSimConst : List Int → List Int → Score := fun _ _ => ⟨1, 1⟩

def sparseSimConst : List Nat × List Nat → List Nat × List Nat → Score :=
  fun _ _ => ⟨0, 1⟩

def resultA : SearchResult :=
  { content := "alpha text", score := ⟨6, 9⟩,
    metadata := [("paper_id", "A"), ("section", "intro")] }

theorem filtered_query_scoping_witness :
    kvLookup ("paper_id") resultA.metadata = some "A" :=
  filtered_query_scoping embedLen denseSimConst sparseSimConst hashLen
    [idxPointA, idxPointB] "q" none 5 "A" resultA (by decide)



end Shodh
